import Mathlib

/-!
Verification of the concur-bench concurrency benchmark core.

This file gives a shallow embedding, in Lean 4, of the C sources of the
concur-bench repository (error codes, the compute kernel `cb_array_sum`,
the work partitioner used by the process and thread coordinators, the
statistics engine `cb_stats_compute`, the pipe read loop `cb_pipe_read`,
the dataset generator `cb_dataset_create`, the input layer
(`cb_parse_args` / `cb_input_interactive`), and the three benchmark
coordinators `cb_bench_single_run`, `cb_bench_process_run`,
`cb_bench_thread_run`), together with theorems settling the spec's
claims about that code.

Modelling conventions:
* C `long int` values (array elements, sums) are modelled as `Int`;
  the dataset elements lie in [1, 100] and array lengths fit in `int`,
  so no overflow can occur and exact integers are faithful.
* C `double` values (timestamps, elapsed times) are modelled as exact
  rationals `Rat`; the operations the claims depend on (comparisons,
  min/max selection) are exact in IEEE arithmetic as well.  The one
  irrational operation, `sqrt` in the statistics engine, is modelled
  with `Real.sqrt`.
* A `T *` pointer argument that may be NULL is modelled as `Option T`;
  an out-parameter is modelled by state passing: the function receives
  the current value and returns the (possibly unchanged) new value.
* Fallible platform primitives (fork, pthread_create, pipe, read,
  waitpid) are modelled by boolean oracles indexed by iteration and
  worker index; timing primitives by rational-valued oracles.
-/

/-- Error codes of error.h (`cb_error_t`). -/
inductive cb_error
  | OK
  | ERR_ALLOC
  | ERR_PIPE
  | ERR_FORK
  | ERR_THREAD
  | ERR_MUTEX
  | ERR_IO
  | ERR_INPUT
  | ERR_PLATFORM
  | ERR_TIMEOUT
  | ERR_OVERFLOW
  | ERR_ARGS
  | ERR_SHM
  deriving DecidableEq, Repr

/-- Benchmark configuration (`cb_config_t` of types.h).  The C fields are
`int` / `unsigned int`; valid configurations are positive, so `Nat` is used. -/
structure Config where
  array_length : Nat
  num_processes : Nat
  num_threads : Nat
  seed : Nat
  iterations : Nat
  verbose : Bool
  deriving DecidableEq, Repr

/-- Statistical summary (`cb_bench_stats_t` of types.h).  `stddev_sec` is a
real number because the C code computes it with `sqrt`. -/
structure BenchStats where
  min_sec : Rat
  max_sec : Rat
  mean_sec : Rat
  stddev_sec : Real
  iterations : Nat

/-- Report for one benchmark mode (`cb_run_report_t` of types.h). -/
structure RunReport where
  label : String
  sum : Int
  parallelism : Nat
  stats : BenchStats

/-- Compute kernel `cb_array_sum` of worker.c: sum of
`dataset[start + i]` for `i < length`.  Out-of-range reads (impossible on
the in-bounds inputs the program produces) default to 0.  The
`elapsed_sec` half of `cb_result_t` is a clock measurement and is
modelled by the timing oracles of the coordinators. -/
def cb_array_sum (dataset : List Int) (start length : Nat) : Int :=
  ((List.range length).map (fun i => dataset.getD (start + i) 0)).sum

/-- Slice length assigned to worker `i` by the partition logic of
`cb_bench_thread_run` / `cb_bench_process_run`:
`base_len + (i < remainder ? 1 : 0)` with `base_len = L / n`,
`remainder = L % n`. -/
def cb_chunk (L n i : Nat) : Nat :=
  L / n + (if i < L % n then 1 else 0)

/-- Starting offset of worker `i`'s slice: the accumulated sum of the
chunks of workers `0 .. i-1`, exactly as the coordinators' `offset`
variable accumulates it. -/
def cb_offset (L n : Nat) : Nat → Nat
  | 0 => 0
  | i + 1 => cb_offset L n i + cb_chunk L n i

/-- Partial sums of `dataset` over consecutive slices whose lengths are
`lens`, starting at offset `off`: the per-slice outputs of
`cb_array_sum` over an arbitrary contiguous partition. -/
def sliceSums (dataset : List Int) : Nat → List Nat → List Int
  | _, [] => []
  | off, l :: ls => cb_array_sum dataset off l :: sliceSums dataset (off + l) ls

theorem cb_array_sum_split (d : List Int) (s a b : Nat) :
    cb_array_sum d s (a + b) = cb_array_sum d s a + cb_array_sum d (s + a) b := by
  unfold cb_array_sum
  rw [List.range_add, List.map_append, List.sum_append, List.map_map]
  have hf : ((fun i => d.getD (s + i) 0) ∘ fun x => a + x)
      = fun i => d.getD (s + a + i) 0 := by
    funext x
    simp [Function.comp, Nat.add_assoc]
  rw [hf]

theorem sliceSums_sum (d : List Int) (lens : List Nat) :
    ∀ off : Nat, (sliceSums d off lens).sum = cb_array_sum d off lens.sum := by
  induction lens with
  | nil => intro off; simp [sliceSums, cb_array_sum]
  | cons l ls ih =>
    intro off
    simp only [sliceSums, List.sum_cons, ih, cb_array_sum_split]

theorem cb_offset_eq (L n : Nat) :
    ∀ i, cb_offset L n i = i * (L / n) + min i (L % n) := by
  intro i
  induction i with
  | zero => simp [cb_offset]
  | succ i ih =>
    rw [cb_offset, ih, cb_chunk]
    rcases Nat.lt_or_ge i (L % n) with h | h
    · rw [if_pos h, Nat.min_eq_left (Nat.le_of_lt h),
        Nat.min_eq_left (Nat.succ_le_of_lt h)]
      simp only [Nat.succ_eq_add_one]
      ring
    · rw [if_neg (Nat.not_lt.mpr h), Nat.min_eq_right h,
        Nat.min_eq_right (Nat.le_succ_of_le h)]
      ring

theorem cb_offset_last (L n : Nat) (hn : 1 ≤ n) : cb_offset L n n = L := by
  rw [cb_offset_eq, Nat.min_eq_right (Nat.le_of_lt (Nat.mod_lt _ hn))]
  exact Nat.div_add_mod L n

theorem cb_offset_mono (L n : Nat) {i j : Nat} (h : i ≤ j) :
    cb_offset L n i ≤ cb_offset L n j := by
  induction j with
  | zero => simp_all
  | succ j ih =>
    rcases Nat.lt_or_ge i (j + 1) with h' | h'
    · exact le_trans (ih (Nat.lt_succ_iff.mp h')) (Nat.le_add_right _ _)
    · have : i = j + 1 := le_antisymm h h'
      simp [this]

theorem flatMap_range_cover (f off : Nat → Nat)
    (hsucc : ∀ i, off (i + 1) = off i + f i) (h0 : off 0 = 0) :
    ∀ k, ((List.range k).flatMap
      (fun i => (List.range (f i)).map (fun x => off i + x))) = List.range (off k) := by
  intro k
  induction k with
  | zero => simp [h0]
  | succ k ih =>
    rw [List.range_succ, List.flatMap_append, ih, hsucc, List.range_add]
    simp

theorem ceil_div_of_mod_pos {L n : Nat} (hn : 1 ≤ n) (hr : 0 < L % n) :
    (L + n - 1) / n = L / n + 1 := by
  have hm : L % n < n := Nat.mod_lt _ hn
  have hd : n * (L / n) + L % n = L := Nat.div_add_mod L n
  have h1 : L + n - 1 = (L % n - 1) + (L / n + 1) * n := by
    have e1 : (L / n + 1) * n = n * (L / n) + n := by ring
    rw [e1]
    generalize n * (L / n) = m at hd ⊢
    generalize L % n = r at hd hr hm ⊢
    omega
  rw [h1, Nat.add_mul_div_right _ _ (show 0 < n by omega),
    Nat.div_eq_of_lt (show L % n - 1 < n by omega)]
  omega

theorem range_sliceSum (d : List Int) (L n : Nat) :
    ∀ k, ((List.range k).map
        (fun i => cb_array_sum d (cb_offset L n i) (cb_chunk L n i))).sum
      = cb_array_sum d 0 (cb_offset L n k) := by
  intro k
  induction k with
  | zero => simp [cb_offset, cb_array_sum]
  | succ k ih =>
    rw [List.range_succ, List.map_append, List.sum_append, ih]
    show _ = cb_array_sum d 0 (cb_offset L n k + cb_chunk L n k)
    rw [cb_array_sum_split, Nat.zero_add]
    simp

/-- C2: for array_length ≥ 1 and 1 ≤ n ≤ 256 with n ≤ array_length, the
slices produced by the partition logic of the coordinators (base length
`L / n`, the first `L % n` slices one element longer, offsets
accumulated in order) are contiguous, pairwise non-overlapping, cover
exactly `[0, L)`, and the first `L % n` slices have length `⌈L/n⌉`
while the rest have length `⌊L/n⌋`. -/
theorem partition_coverage (L n : Nat) (hL : 1 ≤ L) (hn : 1 ≤ n)
    (hn256 : n ≤ 256) (hnL : n ≤ L) :
    (∀ i, cb_offset L n (i + 1) = cb_offset L n i + cb_chunk L n i) ∧
    (∀ i j, i < j → j < n →
      cb_offset L n i + cb_chunk L n i ≤ cb_offset L n j) ∧
    ((List.range n).flatMap
        (fun i => (List.range (cb_chunk L n i)).map (fun x => cb_offset L n i + x)))
      = List.range L ∧
    (∀ i, i < L % n → cb_chunk L n i = (L + n - 1) / n) ∧
    (∀ i, L % n ≤ i → i < n → cb_chunk L n i = L / n) := by
  refine ⟨fun i => rfl, ?_, ?_, ?_, ?_⟩
  · intro i j hij hjn
    have : cb_offset L n (i + 1) ≤ cb_offset L n j :=
      cb_offset_mono L n (Nat.succ_le_of_lt hij)
    simpa [cb_offset] using this
  · have := flatMap_range_cover (cb_chunk L n) (cb_offset L n)
      (fun i => rfl) rfl n
    rw [this, cb_offset_last L n hn]
  · intro i hi
    have hr : 0 < L % n := Nat.lt_of_le_of_lt (Nat.zero_le i) hi
    rw [cb_chunk, if_pos hi, ceil_div_of_mod_pos hn hr]
  · intro i h1 h2
    rw [cb_chunk, if_neg (Nat.not_lt.mpr h1), Nat.add_zero]

/-- C2 witness: the partition of 10 elements among 4 workers. -/
theorem partition_coverage_witness :
    (List.range 4).flatMap
        (fun i => (List.range (cb_chunk 10 4 i)).map (fun x => cb_offset 10 4 i + x))
      = List.range 10 ∧
    cb_chunk 10 4 0 = 3 ∧ cb_chunk 10 4 1 = 3 ∧ cb_chunk 10 4 2 = 2 ∧
    cb_chunk 10 4 3 = 2 := by
  have h := partition_coverage 10 4 (by decide) (by decide) (by decide) (by decide)
  exact ⟨h.2.2.1, by decide, by decide, by decide, by decide⟩

/-- First pass of `cb_stats_compute`: running minimum, seeded with
`times[0]` and folded over the whole array (the loop re-visits index 0,
which is harmless). -/
def statsMin (ts : List Rat) : Rat :=
  ts.foldl min (ts.headD 0)

/-- First pass of `cb_stats_compute`: running maximum, seeded with
`times[0]`. -/
def statsMax (ts : List Rat) : Rat :=
  ts.foldl max (ts.headD 0)

/-- First pass of `cb_stats_compute`: accumulated sum. -/
def statsSum (ts : List Rat) : Rat :=
  ts.foldl (· + ·) 0

/-- Statistics engine `cb_stats_compute` of stats.c.  `times == NULL`,
`stats_out == NULL` and `count < 1` (the empty sample list) yield
`CB_ERR_ARGS` with the output untouched; otherwise min/max/sum are
accumulated in a first pass, `mean = sum / count`, a second pass
accumulates `Σ (x - mean)²`, and the sample standard deviation is
`sqrt(variance_sum / (count - 1))` for `count > 1` and `0.0` otherwise. -/
noncomputable def cb_stats_compute (times : Option (List Rat))
    (stats_out : Option BenchStats) : cb_error × Option BenchStats :=
  match times, stats_out with
  | some ts, some _ =>
    if ts.length < 1 then (.ERR_ARGS, stats_out)
    else
      let mean : Rat := statsSum ts / (ts.length : Rat)
      let variance_sum : Rat := (ts.map (fun x => (x - mean) * (x - mean))).sum
      let stddev : Real :=
        if 1 < ts.length then Real.sqrt ((variance_sum : Real) / ((ts.length : Real) - 1))
        else 0
      (.OK, some { min_sec := statsMin ts, max_sec := statsMax ts,
                   mean_sec := mean, stddev_sec := stddev,
                   iterations := ts.length })
  | _, _ => (.ERR_ARGS, stats_out)

theorem foldl_min_le_init (a : Rat) (l : List Rat) : l.foldl min a ≤ a := by
  induction l generalizing a with
  | nil => exact le_refl a
  | cons x xs ih => exact le_trans (ih (min a x)) (min_le_left a x)

theorem foldl_min_le_mem (a : Rat) (l : List Rat) :
    ∀ x ∈ l, l.foldl min a ≤ x := by
  induction l generalizing a with
  | nil => intro x hx; cases hx
  | cons y ys ih =>
    intro x hx
    rcases List.mem_cons.mp hx with rfl | hx'
    · exact le_trans (foldl_min_le_init (min a x) ys) (min_le_right a x)
    · exact ih (min a y) x hx'

theorem foldl_max_ge_init (a : Rat) (l : List Rat) : a ≤ l.foldl max a := by
  induction l generalizing a with
  | nil => exact le_refl a
  | cons x xs ih => exact le_trans (le_max_left a x) (ih (max a x))

theorem foldl_max_ge_mem (a : Rat) (l : List Rat) :
    ∀ x ∈ l, x ≤ l.foldl max a := by
  induction l generalizing a with
  | nil => intro x hx; cases hx
  | cons y ys ih =>
    intro x hx
    rcases List.mem_cons.mp hx with rfl | hx'
    · exact le_trans (le_max_right a x) (foldl_max_ge_init (max a x) ys)
    · exact ih (max a y) x hx'

theorem statsSum_eq_sum (ts : List Rat) : statsSum ts = ts.sum := by
  unfold statsSum
  have h : ∀ (l : List Rat) (a : Rat), l.foldl (· + ·) a = a + l.sum := by
    intro l
    induction l with
    | nil => intro a; simp
    | cons x xs ih => intro a; rw [List.foldl_cons, ih, List.sum_cons]; ring
  rw [h]
  ring

theorem mul_length_le_sum (m : Rat) (l : List Rat) (h : ∀ x ∈ l, m ≤ x) :
    m * (l.length : Rat) ≤ l.sum := by
  induction l with
  | nil => simp
  | cons x xs ih =>
    have hx : m ≤ x := h x (List.mem_cons_self x xs)
    have hxs : m * (xs.length : Rat) ≤ xs.sum :=
      ih (fun y hy => h y (List.mem_cons_of_mem x hy))
    rw [List.sum_cons, List.length_cons]
    push_cast
    nlinarith

theorem sum_le_mul_length (m : Rat) (l : List Rat) (h : ∀ x ∈ l, x ≤ m) :
    l.sum ≤ m * (l.length : Rat) := by
  induction l with
  | nil => simp
  | cons x xs ih =>
    have hx : x ≤ m := h x (List.mem_cons_self x xs)
    have hxs : xs.sum ≤ m * (xs.length : Rat) :=
      ih (fun y hy => h y (List.mem_cons_of_mem x hy))
    rw [List.sum_cons, List.length_cons]
    push_cast
    nlinarith

/-- C6: `cb_stats_compute` returns `CB_ERR_ARGS` for every empty sample
sequence (`count < 1`, and likewise for a NULL `times` pointer), and for
every single-sample sequence it succeeds with a standard deviation equal
to 0 (never undefined or NaN: the `count > 1` branch computing `sqrt` is
not taken). -/
theorem stats_empty_errs_single_stddev_zero (out : Option BenchStats)
    (ts : List Rat) (t : Rat) (s : BenchStats) :
    (ts.length < 1 → cb_stats_compute (some ts) out = (.ERR_ARGS, out)) ∧
    cb_stats_compute none out = (.ERR_ARGS, out) ∧
    (cb_stats_compute (some [t]) (some s)).1 = .OK ∧
    (cb_stats_compute (some [t]) (some s)).2.map (fun x => x.stddev_sec)
      = some 0 ∧
    (cb_stats_compute (some [t]) (some s)).2.map (fun x => x.iterations)
      = some 1 := by
  refine ⟨?_, ?_, ?_, ?_, ?_⟩
  · intro hlen
    cases out with
    | none => rfl
    | some o => simp only [cb_stats_compute, if_pos hlen]
  · cases out with
    | none => rfl
    | some o => rfl
  · simp [cb_stats_compute]
  · simp [cb_stats_compute]
  · simp [cb_stats_compute]

/-- C6 witness: concrete evaluations at the empty list and at `[2]`. -/
theorem stats_empty_errs_single_stddev_zero_witness :
    cb_stats_compute (some []) (some ⟨0, 0, 0, 0, 0⟩) =
      (.ERR_ARGS, some ⟨0, 0, 0, 0, 0⟩) ∧
    (cb_stats_compute (some [(2 : Rat)]) (some ⟨0, 0, 0, 0, 0⟩)).1 = .OK ∧
    (cb_stats_compute (some [(2 : Rat)]) (some ⟨0, 0, 0, 0, 0⟩)).2.map
      (fun x => x.stddev_sec) = some 0 := by
  have h := stats_empty_errs_single_stddev_zero
    (some ⟨0, 0, 0, 0, 0⟩) [] 2 ⟨0, 0, 0, 0, 0⟩
  exact ⟨h.1 (by decide), h.2.2.1, h.2.2.2.1⟩

/-- C7: for every non-empty sample sequence, `cb_stats_compute` succeeds
and the computed statistics satisfy `min ≤ mean ≤ max`, where min and max
come from the first pass and mean is the accumulated sum divided by the
count. -/
theorem stats_min_le_mean_le_max (ts : List Rat) (out : BenchStats)
    (h : ts ≠ []) :
    ∃ s : BenchStats, cb_stats_compute (some ts) (some out) = (.OK, some s) ∧
      s.min_sec ≤ s.mean_sec ∧ s.mean_sec ≤ s.max_sec := by
  have hlen : 0 < ts.length := List.length_pos.mpr h
  have hnot : ¬ ts.length < 1 := by omega
  have hlenq : (0 : Rat) < (ts.length : Rat) := by exact_mod_cast hlen
  have hred : ∃ s : BenchStats,
      cb_stats_compute (some ts) (some out) = (.OK, some s) ∧
      s.min_sec = statsMin ts ∧ s.max_sec = statsMax ts ∧
      s.mean_sec = statsSum ts / (ts.length : Rat) := by
    simp only [cb_stats_compute, if_neg hnot]
    exact ⟨_, rfl, rfl, rfl, rfl⟩
  obtain ⟨s, hs, h1, h2, h3⟩ := hred
  refine ⟨s, hs, ?_, ?_⟩
  · rw [h1, h3, le_div_iff hlenq, statsSum_eq_sum]
    exact mul_length_le_sum _ _ (fun x hx => foldl_min_le_mem _ _ x hx)
  · rw [h2, h3, div_le_iff hlenq, statsSum_eq_sum]
    exact sum_le_mul_length _ _ (fun x hx => foldl_max_ge_mem _ _ x hx)

/-- C7 witness: the sample sequence `[1, 2, 3]`. -/
theorem stats_min_le_mean_le_max_witness :
    (cb_stats_compute (some [(1 : Rat), 2, 3]) (some ⟨0, 0, 0, 0, 0⟩)).2.map
        (fun s => decide (s.min_sec ≤ s.mean_sec ∧ s.mean_sec ≤ s.max_sec))
      = some true := by
  obtain ⟨s, hs, h1, h2⟩ :=
    stats_min_le_mean_le_max [(1 : Rat), 2, 3] ⟨0, 0, 0, 0, 0⟩ (by decide)
  rw [hs]
  simp [h1, h2]

/-- Outcome of one underlying `read()` call observed by the
`cb_pipe_read` loop of platform_unix.c: `ret k` is a return value of
`k ≥ 0` bytes (`ret 0` is end-of-file), `intr` is a failure with
`errno == EINTR`, and err is any other read failure. -/
inductive ReadOutcome
  | ret (k : Nat)
  | intr
  | err
  deriving DecidableEq, Repr

/-- The `cb_pipe_read` loop of platform_unix.c, driven by the stream of
`read()` outcomes: `EINTR` retries, any other error or a zero-byte read
(end-of-file) returns `CB_ERR_PIPE`, and a positive return consumes up
to `remaining` bytes.  The result is `none` if the outcome stream is
exhausted while bytes remain (the C loop would block), otherwise
`some (error, bytes consumed)`. -/
def cb_pipe_read : List ReadOutcome → Nat → Option (cb_error × Nat)
  | _, 0 => some (.OK, 0)
  | [], _ + 1 => none
  | .intr :: rest, r + 1 => cb_pipe_read rest (r + 1)
  | .err :: _, _ + 1 => some (.ERR_PIPE, 0)
  | .ret 0 :: _, _ + 1 => some (.ERR_PIPE, 0)
  | .ret (k + 1) :: rest, r + 1 =>
    (cb_pipe_read rest ((r + 1) - min (k + 1) (r + 1))).map
      (fun er => (er.1, min (k + 1) (r + 1) + er.2))

/-- C5: `cb_pipe_read` succeeds only after consuming exactly `size`
bytes; if end-of-file or a read error occurs before `size` bytes have
been consumed, it returns `CB_ERR_PIPE` (the only error it ever
returns), so a short read never succeeds. -/
theorem pipe_read_exact (outcomes : List ReadOutcome) (size : Nat)
    (res : cb_error × Nat) (hres : cb_pipe_read outcomes size = some res) :
    (res.1 = .OK → res.2 = size) ∧ (res.1 ≠ .OK → res.1 = .ERR_PIPE) := by
  induction outcomes generalizing size res with
  | nil =>
    cases size with
    | zero =>
      cases hres
      exact ⟨fun _ => rfl, fun hne => absurd rfl hne⟩
    | succ r => cases hres
  | cons o rest ih =>
    cases size with
    | zero =>
      cases o with
      | ret k =>
        cases k <;> (cases hres; exact ⟨fun _ => rfl, fun hne => absurd rfl hne⟩)
      | intr => cases hres; exact ⟨fun _ => rfl, fun hne => absurd rfl hne⟩
      | err => cases hres; exact ⟨fun _ => rfl, fun hne => absurd rfl hne⟩
    | succ r =>
      cases o with
      | intr => exact ih (r + 1) res hres
      | err =>
        cases hres
        exact ⟨fun hok => absurd hok (by decide), fun _ => rfl⟩
      | ret k =>
        cases k with
        | zero =>
          cases hres
          exact ⟨fun hok => absurd hok (by decide), fun _ => rfl⟩
        | succ k' =>
          simp only [cb_pipe_read, Option.map_eq_some'] at hres
          obtain ⟨er, her, hmap⟩ := hres
          have hrec := ih ((r + 1) - min (k' + 1) (r + 1)) er her
          subst hmap
          refine ⟨fun hok => ?_, fun hne => ?_⟩
          · have h2 := hrec.1 hok
        -- er.2 = (r + 1) - min (k' + 1) (r + 1)
            simp only
            omega
          · exact hrec.2 hne

/-- C5 witness: a 12-byte read served in chunks of 8 and 4 succeeds with
exactly 12 bytes consumed; a stream hitting end-of-file first fails. -/
theorem pipe_read_exact_witness :
    cb_pipe_read [.ret 8, .ret 4] 12 = some (.OK, 12) ∧
    ((.OK, 12) : cb_error × Nat).2 = 12 := by
  constructor
  · decide
  · exact (pipe_read_exact [.ret 8, .ret 4] 12 (.OK, 12) (by decide)).1 rfl

/-- Shared accumulator of the thread benchmark (`cb_thread_shared_t` of
worker.h): running sum, minimum start time seen (-1.0 = unset), maximum
end time seen. -/
structure ThreadShared where
  sum : Int
  earliest_start : Rat
  latest_end : Rat
  deriving DecidableEq, Repr

/-- The contribution of one thread: its two timestamps taken around the
local summation loop and its partial sum. -/
structure ThreadRes where
  t_start : Rat
  t_end : Rat
  psum : Int
  deriving DecidableEq, Repr

/-- Initial accumulator value set by `cb_bench_thread_run` at the start
of each iteration: `{ sum = 0, earliest_start = -1.0, latest_end = 0.0 }`. -/
def initShared : ThreadShared :=
  { sum := 0, earliest_start := -1, latest_end := 0 }

/-- The single critical section of `cb_array_sum_thread_fn` in worker.c:
with the mutex held, add the partial sum, then conditionally update
`earliest_start` (taken if unset, i.e. negative, or if this thread
started earlier) and `latest_end` (taken if this thread ended later). -/
def threadUpdate (acc : ThreadShared) (r : ThreadRes) : ThreadShared :=
  { sum := acc.sum + r.psum,
    earliest_start :=
      if acc.earliest_start < 0 ∨ r.t_start < acc.earliest_start then r.t_start
      else acc.earliest_start,
    latest_end :=
      if acc.latest_end < r.t_end then r.t_end else acc.latest_end }

theorem threadShared_ext (a b : ThreadShared) (h1 : a.sum = b.sum)
    (h2 : a.earliest_start = b.earliest_start)
    (h3 : a.latest_end = b.latest_end) : a = b := by
  cases a
  cases b
  simp_all

theorem fold_threadUpdate_sum (l : List ThreadRes) :
    ∀ acc : ThreadShared,
      (l.foldl threadUpdate acc).sum = acc.sum + (l.map (fun r => r.psum)).sum := by
  induction l with
  | nil => intro acc; simp
  | cons r rest ih =>
    intro acc
    rw [List.foldl_cons, ih, List.map_cons, List.sum_cons]
    show acc.sum + r.psum + _ = _
    ring

theorem threadUpdate_earliest_nonneg (acc : ThreadShared) (r : ThreadRes)
    (hacc : 0 ≤ acc.earliest_start) :
    (threadUpdate acc r).earliest_start = min acc.earliest_start r.t_start := by
  simp only [threadUpdate]
  rcases lt_or_le r.t_start acc.earliest_start with h | h
  · rw [if_pos (Or.inr h), min_eq_right (le_of_lt h)]
  · rw [if_neg, min_eq_left h]
    rintro (h1 | h2)
    · exact absurd h1 (not_lt.mpr hacc)
    · exact absurd h2 (not_lt.mpr h)

theorem threadUpdate_latest (acc : ThreadShared) (r : ThreadRes) :
    (threadUpdate acc r).latest_end = max acc.latest_end r.t_end := by
  simp only [threadUpdate]
  rcases lt_or_le acc.latest_end r.t_end with h | h
  · rw [if_pos h, max_eq_right (le_of_lt h)]
  · rw [if_neg (not_lt.mpr h), max_eq_left h]

theorem fold_threadUpdate_earliest (l : List ThreadRes) :
    ∀ acc : ThreadShared, 0 ≤ acc.earliest_start →
      (∀ r ∈ l, 0 ≤ r.t_start) →
      (l.foldl threadUpdate acc).earliest_start
        = (l.map (fun r => r.t_start)).foldl min acc.earliest_start := by
  induction l with
  | nil => intro acc _ _; rfl
  | cons r rest ih =>
    intro acc hacc hl
    rw [List.foldl_cons, List.map_cons, List.foldl_cons]
    have hr : 0 ≤ r.t_start := hl r (List.mem_cons_self r rest)
    have hnext : 0 ≤ (threadUpdate acc r).earliest_start := by
      rw [threadUpdate_earliest_nonneg acc r hacc]
      exact le_min hacc hr
    rw [ih (threadUpdate acc r) hnext (fun x hx => hl x (List.mem_cons_of_mem r hx)),
      threadUpdate_earliest_nonneg acc r hacc]

theorem fold_threadUpdate_latest (l : List ThreadRes) :
    ∀ acc : ThreadShared,
      (l.foldl threadUpdate acc).latest_end
        = (l.map (fun r => r.t_end)).foldl max acc.latest_end := by
  induction l with
  | nil => intro acc; rfl
  | cons r rest ih =>
    intro acc
    rw [List.foldl_cons, List.map_cons, List.foldl_cons, ih,
      threadUpdate_latest]

theorem foldl_min_mem (a : Rat) (l : List Rat) :
    l.foldl min a = a ∨ l.foldl min a ∈ l := by
  induction l generalizing a with
  | nil => exact Or.inl rfl
  | cons x xs ih =>
    rcases ih (min a x) with h | h
    · rcases min_choice a x with hm | hm
      · exact Or.inl (by rw [List.foldl_cons, h, hm])
      · exact Or.inr (by rw [List.foldl_cons, h, hm]; exact List.mem_cons_self x xs)
    · exact Or.inr (List.mem_cons_of_mem x h)

theorem foldl_max_mem (a : Rat) (l : List Rat) :
    l.foldl max a = a ∨ l.foldl max a ∈ l := by
  induction l generalizing a with
  | nil => exact Or.inl rfl
  | cons x xs ih =>
    rcases ih (max a x) with h | h
    · rcases max_choice a x with hm | hm
      · exact Or.inl (by rw [List.foldl_cons, h, hm])
      · exact Or.inr (by rw [List.foldl_cons, h, hm]; exact List.mem_cons_self x xs)
    · exact Or.inr (List.mem_cons_of_mem x h)

theorem fold_init_earliest (rs : List ThreadRes) (hne : rs ≠ [])
    (hpos : ∀ r ∈ rs, 0 ≤ r.t_start) :
    (∀ r ∈ rs, (rs.foldl threadUpdate initShared).earliest_start ≤ r.t_start) ∧
    (∃ r ∈ rs, (rs.foldl threadUpdate initShared).earliest_start = r.t_start) := by
  match rs, hne with
  | r0 :: rest, _ =>
    have hstep : threadUpdate initShared r0
        = { sum := r0.psum, earliest_start := r0.t_start, latest_end :=
            if (0 : Rat) < r0.t_end then r0.t_end else 0 } := by
      simp only [threadUpdate, initShared]
      rw [if_pos (Or.inl (by norm_num))]
      simp
    have h0 : 0 ≤ r0.t_start := hpos r0 (List.mem_cons_self r0 rest)
    have hrest : ∀ r ∈ rest, 0 ≤ r.t_start :=
      fun r hr => hpos r (List.mem_cons_of_mem r0 hr)
    rw [List.foldl_cons, hstep,
      fold_threadUpdate_earliest rest _ h0 hrest]
    constructor
    · intro r hr
      rcases List.mem_cons.mp hr with rfl | hr'
      · exact foldl_min_le_init _ _
      · exact foldl_min_le_mem _ _ _ (List.mem_map_of_mem _ hr')
    · rcases foldl_min_mem r0.t_start (rest.map (fun r => r.t_start)) with h | h
      · exact ⟨r0, List.mem_cons_self r0 rest, h⟩
      · obtain ⟨r, hr, hrq⟩ := List.mem_map.mp h
        exact ⟨r, List.mem_cons_of_mem r0 hr, by rw [← hrq]⟩

theorem fold_init_latest (rs : List ThreadRes) (hne : rs ≠ [])
    (hpos : ∀ r ∈ rs, 0 ≤ r.t_end) :
    (∀ r ∈ rs, r.t_end ≤ (rs.foldl threadUpdate initShared).latest_end) ∧
    (∃ r ∈ rs, (rs.foldl threadUpdate initShared).latest_end = r.t_end) := by
  have heq : (rs.foldl threadUpdate initShared).latest_end
      = (rs.map (fun r => r.t_end)).foldl max 0 :=
    fold_threadUpdate_latest rs initShared
  constructor
  · intro r hr
    rw [heq]
    exact foldl_max_ge_mem _ _ _ (List.mem_map_of_mem _ hr)
  · rw [heq]
    rcases foldl_max_mem 0 (rs.map (fun r => r.t_end)) with h | h
    · obtain ⟨r0, rest, rfl⟩ : ∃ a l, rs = a :: l := by
        cases rs with
        | nil => exact absurd rfl hne
        | cons a l => exact ⟨a, l, rfl⟩
      refine ⟨r0, List.mem_cons_self r0 rest, ?_⟩
      have hub : r0.t_end ≤ ((r0 :: rest).map (fun r => r.t_end)).foldl max 0 :=
        foldl_max_ge_mem _ _ _ (List.mem_map_of_mem _ (List.mem_cons_self r0 rest))
      have h0 : 0 ≤ r0.t_end := hpos r0 (List.mem_cons_self r0 rest)
      rw [h] at hub ⊢
      exact (le_antisymm hub h0).symm
    · obtain ⟨r, hr, hrq⟩ := List.mem_map.mp h
      exact ⟨r, hr, hrq.symm⟩

/-- C3: folding the per-thread critical-section update of
`cb_array_sum_thread_fn` over any non-empty collection of thread results
(each with non-negative monotonic-clock timestamps), starting from the
accumulator `{sum = 0, earliest_start = -1.0, latest_end = 0.0}`, yields
a final `sum` equal to the total of the partial sums, an
`earliest_start` equal to the minimum of the start timestamps, and a
`latest_end` equal to the maximum of the end timestamps — and the final
accumulator is the same for every order in which the updates are
applied. -/
theorem thread_accumulator_correct (rs : List ThreadRes) (hne : rs ≠ [])
    (hpos : ∀ r ∈ rs, 0 ≤ r.t_start ∧ 0 ≤ r.t_end) :
    (rs.foldl threadUpdate initShared).sum
      = (rs.map (fun r => r.psum)).sum ∧
    (∀ r ∈ rs, (rs.foldl threadUpdate initShared).earliest_start ≤ r.t_start) ∧
    (∃ r ∈ rs, (rs.foldl threadUpdate initShared).earliest_start = r.t_start) ∧
    (∀ r ∈ rs, r.t_end ≤ (rs.foldl threadUpdate initShared).latest_end) ∧
    (∃ r ∈ rs, (rs.foldl threadUpdate initShared).latest_end = r.t_end) ∧
    (∀ rs' : List ThreadRes, rs.Perm rs' →
      rs'.foldl threadUpdate initShared = rs.foldl threadUpdate initShared) := by
  have hs : ∀ r ∈ rs, 0 ≤ r.t_start := fun r hr => (hpos r hr).1
  have he : ∀ r ∈ rs, 0 ≤ r.t_end := fun r hr => (hpos r hr).2
  have hsum : (rs.foldl threadUpdate initShared).sum
      = (rs.map (fun r => r.psum)).sum := by
    rw [fold_threadUpdate_sum]
    show (0 : Int) + _ = _
    ring
  have hearly := fold_init_earliest rs hne hs
  have hlate := fold_init_latest rs hne he
  refine ⟨hsum, hearly.1, hearly.2, hlate.1, hlate.2, ?_⟩
  intro rs' hperm
  have hne' : rs' ≠ [] := by
    intro hnil
    exact hne (List.Perm.eq_nil (hnil ▸ hperm))
  have hmem : ∀ r, r ∈ rs' ↔ r ∈ rs := fun r => (hperm.mem_iff (a := r)).symm
  have hs' : ∀ r ∈ rs', 0 ≤ r.t_start := fun r hr => hs r ((hmem r).mp hr)
  have he' : ∀ r ∈ rs', 0 ≤ r.t_end := fun r hr => he r ((hmem r).mp hr)
  have hearly' := fold_init_earliest rs' hne' hs'
  have hlate' := fold_init_latest rs' hne' he'
  apply threadShared_ext
  · rw [hsum, fold_threadUpdate_sum]
    show (0 : Int) + _ = _
    rw [(hperm.map (fun r => r.psum)).sum_eq]
    ring
  · obtain ⟨ra, hra, hqa⟩ := hearly'.2
    obtain ⟨rb, hrb, hqb⟩ := hearly.2
    have h1 := hearly'.1 rb ((hmem rb).mpr hrb)
    have h2 := hearly.1 ra ((hmem ra).mp hra)
    linarith
  · obtain ⟨ra, hra, hqa⟩ := hlate'.2
    obtain ⟨rb, hrb, hqb⟩ := hlate.2
    have h1 := hlate'.1 rb ((hmem rb).mpr hrb)
    have h2 := hlate.1 ra ((hmem ra).mp hra)
    linarith

/-- C3 witness: three thread results folded in as-given order give sum
35, earliest start 1, latest end 11. -/
theorem thread_accumulator_correct_witness :
    (([⟨3, 9, 5⟩, ⟨1, 7, 10⟩, ⟨2, 11, 20⟩] : List ThreadRes).foldl
        threadUpdate initShared).sum = 35 ∧
    (([⟨3, 9, 5⟩, ⟨1, 7, 10⟩, ⟨2, 11, 20⟩] : List ThreadRes).foldl
        threadUpdate initShared).earliest_start = 1 ∧
    (([⟨3, 9, 5⟩, ⟨1, 7, 10⟩, ⟨2, 11, 20⟩] : List ThreadRes).foldl
        threadUpdate initShared).latest_end = 11 := by
  have h := thread_accumulator_correct
    [⟨3, 9, 5⟩, ⟨1, 7, 10⟩, ⟨2, 11, 20⟩] (by decide)
    (by intro r hr; fin_cases hr <;> exact ⟨by norm_num, by norm_num⟩)
  refine ⟨by rw [h.1]; decide, ?_, ?_⟩
  · have hub := h.2.1 ⟨1, 7, 10⟩ (by decide)
    obtain ⟨r, hr, hq⟩ := h.2.2.1
    rw [hq] at hub ⊢
    fin_cases hr
    · exact absurd hub (by decide)
    · rfl
    · exact absurd hub (by decide)
  · have hlb := h.2.2.2.1 ⟨2, 11, 20⟩ (by decide)
    obtain ⟨r, hr, hq⟩ := h.2.2.2.2.1
    rw [hq] at hlb ⊢
    fin_cases hr
    · exact absurd hlb (by decide)
    · exact absurd hlb (by decide)
    · rfl

/-- Dataset generator `cb_dataset_create` of dataset.c, parameterized by
the C library PRNG: `rand seed i` is the `i`-th value returned by
`rand()` after `srand(seed)` (per the C standard, a fixed deterministic
function of the seed).  If the configured seed is 0, a seed is first
generated from the current time (`timeSeed` models `time(NULL)`) and
written back to the configuration; then `srand(config->seed)` is called
and each element is set to `rand() % 100 + 1`.  A NULL `config` or
`data_out` pointer yields `CB_ERR_ARGS`; `allocOk = false` models a
failing `malloc` (`CB_ERR_ALLOC`, `*data_out` left NULL). -/
def cb_dataset_create (rand : Nat → Nat → Nat) (timeSeed : Nat)
    (allocOk : Bool) :
    Option Config → cb_error × Option Config × Option (List Nat)
  | none => (.ERR_ARGS, none, none)
  | some cfg =>
    let cfg1 := if cfg.seed = 0 then { cfg with seed := rand timeSeed 0 } else cfg
    if allocOk then
      (.OK, some cfg1,
        some ((List.range cfg1.array_length).map
          (fun i => rand cfg1.seed i % 100 + 1)))
    else (.ERR_ALLOC, some cfg1, none)

/-- C8: with a fixed nonzero seed, `cb_dataset_create` is independent of
the ambient time, so two runs with the same configuration produce
element-wise identical datasets; every element lies in [1, 100]; and the
configured seed value is left unchanged. -/
theorem dataset_deterministic_bounded (rand : Nat → Nat → Nat)
    (t1 t2 : Nat) (cfg : Config) (hseed : cfg.seed ≠ 0) :
    cb_dataset_create rand t1 true (some cfg)
      = cb_dataset_create rand t2 true (some cfg) ∧
    (cb_dataset_create rand t1 true (some cfg)).2.1.map (fun c => c.seed)
      = some cfg.seed ∧
    (∀ data, (cb_dataset_create rand t1 true (some cfg)).2.2 = some data →
      ∀ x ∈ data, 1 ≤ x ∧ x ≤ 100) := by
  have hred : ∀ t : Nat, cb_dataset_create rand t true (some cfg)
      = (.OK, some cfg,
          some ((List.range cfg.array_length).map
            (fun i => rand cfg.seed i % 100 + 1))) := by
    intro t
    simp only [cb_dataset_create, if_neg hseed, if_pos]
  refine ⟨by rw [hred t1, hred t2], by rw [hred t1]; rfl, ?_⟩
  intro data hdata x hx
  rw [hred t1] at hdata
  obtain rfl : ((List.range cfg.array_length).map
      (fun i => rand cfg.seed i % 100 + 1)) = data := by
    injection hdata
  obtain ⟨i, _, rfl⟩ := List.mem_map.mp hx
  constructor
  · omega
  · have : rand cfg.seed i % 100 < 100 := Nat.mod_lt _ (by norm_num)
    omega

/-- C8 witness: a concrete PRNG, two different time values, seed 7. -/
theorem dataset_deterministic_bounded_witness :
    cb_dataset_create (fun s i => s + i) 11 true
        (some ⟨3, 1, 1, 7, 1, false⟩)
      = cb_dataset_create (fun s i => s + i) 99 true
        (some ⟨3, 1, 1, 7, 1, false⟩) ∧
    (cb_dataset_create (fun s i => s + i) 11 true
        (some ⟨3, 1, 1, 7, 1, false⟩)).2.1.map (fun c => c.seed)
      = some 7 := by
  have h := dataset_deterministic_bounded (fun s i => s + i) 11 99
    ⟨3, 1, 1, 7, 1, false⟩ (by decide)
  exact ⟨h.1, h.2.1⟩

/-- One line read from stdin by input.c, abstracted by its two parses:
`yn` is the yes/no interpretation of the first character (`some b` when
it is y/Y/n/N), `num` is the full-line `strtol`/`strtoul` parse
(`some v` when the line is a well-formed number within the
representable range). -/
structure InLine where
  yn : Option Bool
  num : Option Int
  deriving DecidableEq, Repr

/-- `read_yes_no` of input.c: re-prompts until a line starting with
y/Y/n/N arrives; end of input (stream exhausted) is `CB_ERR_INPUT`,
modelled as `none`. -/
def read_yes_no : List InLine → Option (Bool × List InLine)
  | [] => none
  | l :: rest =>
    match l.yn with
    | some b => some (b, rest)
    | none => read_yes_no rest

/-- `read_long` of input.c: re-prompts until a well-formed number within
`[lo, hi]` arrives; end of input is `CB_ERR_INPUT` (`none`). -/
def read_long (lo hi : Int) : List InLine → Option (Int × List InLine)
  | [] => none
  | l :: rest =>
    match l.num with
    | some v => if lo ≤ v ∧ v ≤ hi then some (v, rest) else read_long lo hi rest
    | none => read_long lo hi rest

/-- `read_ulong` of input.c: identical retry structure over the unsigned
parse; negative input lines are rejected and re-prompted, so its
observable behaviour is that of `read_long` over `[lo, hi] ⊆ [0, UINT_MAX]`. -/
def read_ulong (lo hi : Int) : List InLine → Option (Int × List InLine)
  | [] => none
  | l :: rest =>
    match l.num with
    | some v =>
      if v < 0 then read_ulong lo hi rest
      else if lo ≤ v ∧ v ≤ hi then some (v, rest) else read_ulong lo hi rest
    | none => read_ulong lo hi rest

/-- `cb_input_interactive` of input.c: prompts in order for verbose mode
(skipped when already set from the command line), array length in
`[CB_MIN_ARRAY_LEN, INT_MAX]`, process and thread counts in
`[CB_MIN_WORKERS, CB_MAX_WORKERS]`, seed in `[0, UINT_MAX]`, and
iterations in `[1, 100]` (always prompted, overwriting any command-line
value).  Returns `none` on end of input (`CB_ERR_INPUT`). -/
def cb_input_interactive (cfg : Config) (stdin : List InLine) : Option Config :=
  (if cfg.verbose then some (true, stdin) else read_yes_no stdin).bind
    fun vb =>
  (read_long 1000 2147483647 vb.2).bind fun len =>
  (read_long 1 256 len.2).bind fun np =>
  (read_long 1 256 np.2).bind fun nt =>
  (read_ulong 0 4294967295 nt.2).bind fun sd =>
  (read_long 1 100 sd.2).bind fun it =>
  some { array_length := len.1.toNat, num_processes := np.1.toNat,
         num_threads := nt.1.toNat, seed := sd.1.toNat,
         iterations := it.1.toNat, verbose := vb.1 }

/-- One command-line argument group recognized by `cb_parse_args` of
input.c.  `iterationsOpt none` models `--iterations` whose value is
missing or fails to parse; `worker` models `--worker` with its six
already-parsed values; `unknown` is any unrecognized option. -/
inductive CliArg
  | help
  | verbose
  | iterationsOpt (v : Option Int)
  | worker (id : Int) (shm : String) (size nw s len : Int)
  | unknown
  deriving DecidableEq, Repr

/-- The argument-scanning loop of `cb_parse_args`: `--help`, a bad
`--iterations` value (valid range is 1..1000), and unknown options
return `CB_ERR_ARGS` (`none`); `--verbose` and a valid `--iterations`
update the configuration; `--worker` sets the worker flag. -/
def parseArgsGo : Config → Bool → List CliArg → Option (Config × Bool)
  | cfg, isw, [] => some (cfg, isw)
  | _, _, .help :: _ => none
  | cfg, isw, .verbose :: rest =>
    parseArgsGo { cfg with verbose := true } isw rest
  | _, _, .iterationsOpt none :: _ => none
  | cfg, isw, .iterationsOpt (some v) :: rest =>
    if 1 ≤ v ∧ v ≤ 1000 then
      parseArgsGo { cfg with iterations := v.toNat } isw rest
    else none
  | cfg, _, .worker _ _ _ _ _ _ :: rest => parseArgsGo cfg true rest
  | _, _, .unknown :: _ => none

/-- `cb_parse_args` of input.c: starts from the default configuration
(`iterations = CB_DEFAULT_ITERATIONS = 5`, everything else zero/false)
and scans the argument list.  `none` models `CB_ERR_ARGS`; the `Bool`
is the `is_worker` flag. -/
def cb_parse_args (args : List CliArg) : Option (Config × Bool) :=
  parseArgsGo { array_length := 0, num_processes := 0, num_threads := 0,
                seed := 0, iterations := 5, verbose := false } false args

theorem read_long_range (lo hi : Int) :
    ∀ (stdin : List InLine) (v : Int) (rest : List InLine),
      read_long lo hi stdin = some (v, rest) → lo ≤ v ∧ v ≤ hi := by
  intro stdin
  induction stdin with
  | nil => intro v rest h; cases h
  | cons l ls ih =>
    intro v rest h
    rw [read_long] at h
    cases hn : l.num with
    | none => rw [hn] at h; exact ih v rest h
    | some w =>
      rw [hn] at h
      have h' : (if lo ≤ w ∧ w ≤ hi then some (w, ls)
          else read_long lo hi ls) = some (v, rest) := h
      by_cases hw : lo ≤ w ∧ w ≤ hi
      · rw [if_pos hw] at h'
        obtain ⟨rfl, rfl⟩ : w = v ∧ ls = rest := by
          injection h' with h1
          injection h1 with h2 h3
          exact ⟨h2, h3⟩
        exact hw
      · rw [if_neg hw] at h'
        exact ih v rest h'

/-- C9: every configuration accepted by the input layer — command-line
parsing by `cb_parse_args` followed by interactive collection by
`cb_input_interactive` — has an iterations value between 1 and 100
inclusive when the benchmark run begins (the interactive iterations
prompt validates against [1, 100] and overwrites any command-line
value, which `cb_parse_args` alone would only bound by 1000). -/
theorem accepted_config_iterations_in_range (args : List CliArg)
    (stdin : List InLine) (cfg0 : Config) (isw : Bool) (cfg : Config)
    (hparse : cb_parse_args args = some (cfg0, isw))
    (hinter : cb_input_interactive cfg0 stdin = some cfg) :
    1 ≤ cfg.iterations ∧ cfg.iterations ≤ 100 := by
  unfold cb_input_interactive at hinter
  simp only [Option.bind_eq_some] at hinter
  obtain ⟨vb, hvb, len, hlen, np, hnp, nt, hnt, sd, hsd, it, hit, hout⟩ := hinter
  have hrange := read_long_range 1 100 sd.2 it.1 it.2
    (by rw [← hit])
  obtain rfl : _ = cfg := by injection hout
  constructor
  · show 1 ≤ it.1.toNat
    omega
  · show it.1.toNat ≤ 100
    omega

/-- C9 witness: `--verbose --iterations 500` on the command line, then an
interactive session entering 1000, 2, 2, seed 7, and 5 iterations. -/
theorem accepted_config_iterations_in_range_witness :
    cb_parse_args [.verbose, .iterationsOpt (some 500)]
      = some (⟨0, 0, 0, 0, 500, true⟩, false) ∧
    cb_input_interactive ⟨0, 0, 0, 0, 500, true⟩
        [⟨none, some 1000⟩, ⟨none, some 2⟩, ⟨none, some 2⟩,
         ⟨none, some 7⟩, ⟨none, some 5⟩]
      = some ⟨1000, 2, 2, 7, 5, true⟩ ∧
    1 ≤ (⟨1000, 2, 2, 7, 5, true⟩ : Config).iterations ∧
    (⟨1000, 2, 2, 7, 5, true⟩ : Config).iterations ≤ 100 := by
  refine ⟨by decide, by decide, ?_⟩
  exact accepted_config_iterations_in_range
    [.verbose, .iterationsOpt (some 500)]
    [⟨none, some 1000⟩, ⟨none, some 2⟩, ⟨none, some 2⟩,
     ⟨none, some 7⟩, ⟨none, some 5⟩]
    ⟨0, 0, 0, 0, 500, true⟩ false ⟨1000, 2, 2, 7, 5, true⟩
    (by decide) (by decide)

/-- Baseline coordinator `cb_bench_single_run` of bench_single.c.
`elapsed t` is the kernel's measured elapsed time in iteration `t`
(timing oracle); `allocOk` models the `calloc` of the times array.  The
loop runs `cb_array_sum` over the full dataset each iteration; the sum
is a pure function of the dataset, so `verified_sum` is iteration 0's
sum (or the initial 0 if the loop body never runs) and the mismatch
warning can never fire.  Report fields are assigned before
`cb_stats_compute` is called on the collected times; its error is the
function's return value. -/
noncomputable def cb_bench_single_run (elapsed : Nat → Rat) (allocOk : Bool)
    (dataset : Option (List Int)) (config : Option Config)
    (report : Option RunReport) : cb_error × Option RunReport :=
  match dataset, config, report with
  | some d, some cfg, some r =>
    if allocOk then
      let verified : Int :=
        match cfg.iterations with
        | 0 => 0
        | _ + 1 => cb_array_sum d 0 cfg.array_length
      let times := (List.range cfg.iterations).map elapsed
      let sres := cb_stats_compute (some times) (some r.stats)
      (sres.1, some { label := "single", sum := verified, parallelism := 1,
                      stats := sres.2.getD r.stats })
    else (.ERR_ALLOC, some r)
  | _, _, _ => (.ERR_ARGS, report)

/-- Platform oracle for the thread coordinator: success of
`cb_thread_create` / `cb_thread_join` per (iteration, thread), the two
timestamps each thread takes around its local summation, and the order
(`schedule`) in which the threads' critical sections execute within an
iteration (a permutation of `range num_threads`). -/
structure ThreadOracle where
  createOk : Nat → Nat → Bool
  joinOk : Nat → Nat → Bool
  startTime : Nat → Nat → Rat
  endTime : Nat → Nat → Rat
  schedule : Nat → List Nat

/-- The contribution of thread `i` in iteration `t` of
`cb_bench_thread_run`: its slice's partial sum through `cb_array_sum`
and its two timestamps. -/
def threadResult (o : ThreadOracle) (d : List Int) (L n t i : Nat) : ThreadRes :=
  { t_start := o.startTime t i, t_end := o.endTime t i,
    psum := cb_array_sum d (cb_offset L n i) (cb_chunk L n i) }

/-- Final value of the shared accumulator of one iteration of
`cb_bench_thread_run` after all threads are joined: the critical-section
updates applied in schedule order to the freshly reset accumulator. -/
def threadFinal (o : ThreadOracle) (d : List Int) (L n t : Nat) : ThreadShared :=
  ((o.schedule t).map (threadResult o d L n t)).foldl threadUpdate initShared

/-- The iteration loop of `cb_bench_thread_run`: on a thread create
failure the already-created threads are joined and `CB_ERR_THREAD` is
returned (no iteration record); a join failure also aborts after all
joins; otherwise the iteration records
`(latest_end - earliest_start, shared.sum)` and the loop continues. -/
def threadIters (o : ThreadOracle) (d : List Int) (L n : Nat) :
    Nat → Nat → Option cb_error × List (Rat × Int)
  | 0, _ => (none, [])
  | c + 1, t =>
    if (List.range n).all (fun i => o.createOk t i) then
      if (List.range n).all (fun i => o.joinOk t i) then
        let sh := threadFinal o d L n t
        let rest := threadIters o d L n c (t + 1)
        (rest.1, (sh.latest_end - sh.earliest_start, sh.sum) :: rest.2)
      else (some .ERR_THREAD, [])
    else (some .ERR_THREAD, [])

/-- Thread coordinator `cb_bench_thread_run` of bench_thread.c.  NULL
argument checks first; `allocOk` models the three `calloc`s, `mutexOk`
the single shared `cb_mutex_init`.  On success the report carries
iteration 0's accumulated sum (`verified_sum`), `parallelism =
num_threads`, and statistics over the per-iteration wall-clock spans. -/
noncomputable def cb_bench_thread_run (o : ThreadOracle) (allocOk mutexOk : Bool)
    (dataset : Option (List Int)) (config : Option Config)
    (report : Option RunReport) : cb_error × Option RunReport :=
  match dataset, config, report with
  | some d, some cfg, some r =>
    if allocOk then
      if mutexOk then
        let n := cfg.num_threads
        let res := threadIters o d cfg.array_length n cfg.iterations 0
        match res.1 with
        | some e => (e, some r)
        | none =>
          let verified := (res.2.map Prod.snd).headD 0
          let times := res.2.map Prod.fst
          let sres := cb_stats_compute (some times) (some r.stats)
          (sres.1, some { label := "thread", sum := verified, parallelism := n,
                          stats := sres.2.getD r.stats })
      else (.ERR_MUTEX, some r)
    else (.ERR_ALLOC, some r)
  | _, _, _ => (.ERR_ARGS, report)

/-- Observable platform calls made by `cb_bench_process_run`
(bench_process_unix.c), tagged with iteration and worker index:
`spawn` is a `cb_process_spawn` (fork) call, `read` a `cb_pipe_read`
call, `wait` a `cb_process_wait` (waitpid) call, `kill` a
`cb_process_kill` (SIGKILL) call. -/
inductive PEvent
  | spawn (t i : Nat)
  | read (t i : Nat)
  | wait (t i : Nat)
  | kill (t i : Nat)
  deriving DecidableEq, Repr

/-- The iteration a process event belongs to. -/
def evIter : PEvent → Nat
  | .spawn t _ => t
  | .read t _ => t
  | .wait t _ => t
  | .kill t _ => t

/-- Platform oracle for the process coordinator: success of
`cb_pipe_create`, `cb_process_spawn`, `cb_pipe_read` and
`cb_process_wait` per (iteration, worker). -/
structure ProcOracle where
  pipeCreateOk : Nat → Nat → Bool
  spawnOk : Nat → Nat → Bool
  readOk : Nat → Nat → Bool
  waitOk : Nat → Nat → Bool

/-- The `cleanup_children` label of `cb_bench_process_run`: kill and
then reap (wait on) every already-spawned worker `0 .. spawned-1` of
iteration `t`. -/
def cleanupChildren (t spawned : Nat) : List PEvent :=
  (List.range spawned).flatMap (fun j => [PEvent.kill t j, PEvent.wait t j])

/-- The spawn loop of one iteration of `cb_bench_process_run`, from
worker `i` with `c` workers left: create the worker's pipe (failure:
`CB_ERR_PIPE`, teardown of the `i` workers spawned so far), then fork
(the `spawn` call is recorded; failure: `CB_ERR_FORK`, teardown of `i`
workers).  Returns the events and `some (error, spawned)` on failure. -/
def spawnAux (o : ProcOracle) (t : Nat) : Nat → Nat → List PEvent × Option (cb_error × Nat)
  | i, 0 => ([], none)
  | i, c + 1 =>
    if o.pipeCreateOk t i then
      if o.spawnOk t i then
        let rest := spawnAux o t (i + 1) c
        (.spawn t i :: rest.1, rest.2)
      else ([.spawn t i], some (.ERR_FORK, i))
    else ([], some (.ERR_PIPE, i))

/-- The read loop of one iteration of `cb_bench_process_run`: one
blocking `cb_pipe_read` per worker, accumulating the workers' partial
sums into `iter_sum`; a failed read aborts with `CB_ERR_PIPE` (the
caller then tears down all `n` workers). -/
def readAux (o : ProcOracle) (d : List Int) (L n t : Nat) :
    Nat → Nat → List PEvent × Int × Option cb_error
  | _, 0 => ([], 0, none)
  | i, c + 1 =>
    if o.readOk t i then
      let rest := readAux o d L n t (i + 1) c
      (.read t i :: rest.1,
        cb_array_sum d (cb_offset L n i) (cb_chunk L n i) + rest.2.1, rest.2.2)
    else ([.read t i], 0, some .ERR_PIPE)

/-- The wait loop of one iteration of `cb_bench_process_run`: every
spawned worker is waited on even after a failure; the first wait
failure's error (`CB_ERR_PLATFORM`) is kept. -/
def waitAux (o : ProcOracle) (t : Nat) : Nat → Nat → List PEvent × Option cb_error
  | _, 0 => ([], none)
  | i, c + 1 =>
    let rest := waitAux o t (i + 1) c
    (.wait t i :: rest.1, if o.waitOk t i then rest.2 else some .ERR_PLATFORM)

/-- One iteration of `cb_bench_process_run`: spawn loop (teardown of the
spawned prefix on failure), read loop (teardown of all `n` on failure),
wait loop (no teardown: the error is propagated after all waits).  On
success, `some iter_sum` is recorded. -/
def processIter (o : ProcOracle) (d : List Int) (L n t : Nat) :
    List PEvent × Option Int × Option cb_error :=
  let sres := spawnAux o t 0 n
  match sres.2 with
  | some ek => (sres.1 ++ cleanupChildren t ek.2, none, some ek.1)
  | none =>
    let rres := readAux o d L n t 0 n
    match rres.2.2 with
    | some e => (sres.1 ++ rres.1 ++ cleanupChildren t n, none, some e)
    | none =>
      let wres := waitAux o t 0 n
      match wres.2 with
      | some e => (sres.1 ++ rres.1 ++ wres.1, none, some e)
      | none => (sres.1 ++ rres.1 ++ wres.1, some rres.2.1, none)

/-- The iteration loop of `cb_bench_process_run` over `c` remaining
iterations starting at iteration `t`: an iteration error stops the loop
(`goto cleanup`) and is returned; otherwise the per-iteration sums are
collected. -/
def processRun (o : ProcOracle) (d : List Int) (L n : Nat) :
    Nat → Nat → List PEvent × List Int × Option cb_error
  | 0, _ => ([], [], none)
  | c + 1, t =>
    let it := processIter o d L n t
    match it.2.2 with
    | some e => (it.1, [], some e)
    | none =>
      let rest := processRun o d L n c (t + 1)
      (it.1 ++ rest.1, it.2.1.getD 0 :: rest.2.1, rest.2.2)

/-- Process coordinator `cb_bench_process_run` of bench_process_unix.c.
NULL argument checks first; `allocOk` models the four `calloc`s.  On a
worker failure the error is returned with the caller's report untouched;
on success the report carries iteration 0's `iter_sum` as
`verified_sum`, `parallelism = num_processes`, and statistics over the
per-iteration elapsed times (`timeOf` is the timing oracle).  The third
component is the trace of spawn/read/wait/kill platform calls. -/
noncomputable def cb_bench_process_run (o : ProcOracle) (timeOf : Nat → Rat)
    (allocOk : Bool) (dataset : Option (List Int)) (config : Option Config)
    (report : Option RunReport) : cb_error × Option RunReport × List PEvent :=
  match dataset, config, report with
  | some d, some cfg, some r =>
    if allocOk then
      let n := cfg.num_processes
      let run := processRun o d cfg.array_length n cfg.iterations 0
      match run.2.2 with
      | some e => (e, some r, run.1)
      | none =>
        let verified := run.2.1.headD 0
        let times := (List.range cfg.iterations).map timeOf
        let sres := cb_stats_compute (some times) (some r.stats)
        (sres.1, some { label := "process", sum := verified, parallelism := n,
                        stats := sres.2.getD r.stats }, run.1)
    else (.ERR_ALLOC, some r, [])
  | _, _, _ => (.ERR_ARGS, report, [])

theorem range_map_shift {α : Type} (g : Nat → α) (c i : Nat) :
    (List.range (c + 1)).map (fun j => g (i + j))
      = g i :: (List.range c).map (fun j => g (i + 1 + j)) := by
  rw [List.range_succ_eq_map, List.map_cons, Nat.add_zero, List.map_map]
  have hc : ((fun j => g (i + j)) ∘ Nat.succ) = fun j => g (i + 1 + j) := by
    funext j
    simp only [Function.comp]
    congr 1
    omega
  rw [hc]

theorem spawnAux_ok (o : ProcOracle) (t : Nat) :
    ∀ c i : Nat,
      (∀ j, j < c → o.pipeCreateOk t (i + j) = true ∧ o.spawnOk t (i + j) = true) →
      spawnAux o t i c
        = ((List.range c).map (fun j => PEvent.spawn t (i + j)), none) := by
  intro c
  induction c with
  | zero => intro i _; rfl
  | succ c ih =>
    intro i h
    have h0 := h 0 (Nat.succ_pos c)
    rw [Nat.add_zero] at h0
    have hshift : ∀ j, j < c →
        o.pipeCreateOk t (i + 1 + j) = true ∧ o.spawnOk t (i + 1 + j) = true := by
      intro j hj
      have := h (j + 1) (by omega)
      rwa [show i + (j + 1) = i + 1 + j by omega] at this
    simp only [spawnAux, if_pos h0.1, if_pos h0.2, ih (i + 1) hshift]
    rw [range_map_shift (PEvent.spawn t) c i]

theorem spawnAux_spawn_fail (o : ProcOracle) (t : Nat) :
    ∀ k c i : Nat, k < c →
      (∀ j, j < k → o.pipeCreateOk t (i + j) = true ∧ o.spawnOk t (i + j) = true) →
      o.pipeCreateOk t (i + k) = true → o.spawnOk t (i + k) = false →
      spawnAux o t i c
        = ((List.range (k + 1)).map (fun j => PEvent.spawn t (i + j)),
           some (.ERR_FORK, i + k)) := by
  intro k
  induction k with
  | zero =>
    intro c i hkc hok hpipe hfail
    rw [Nat.add_zero] at hpipe hfail
    obtain ⟨c', rfl⟩ : ∃ c', c = c' + 1 := ⟨c - 1, by omega⟩
    simp only [spawnAux, if_pos hpipe, hfail, Bool.false_eq_true, if_false]
    rw [range_map_shift (PEvent.spawn t) 0 i]
    simp
  | succ k ih =>
    intro c i hkc hok hpipe hfail
    obtain ⟨c', rfl⟩ : ∃ c', c = c' + 1 := ⟨c - 1, by omega⟩
    have h0 := hok 0 (Nat.succ_pos k)
    rw [Nat.add_zero] at h0
    have hshift : ∀ j, j < k →
        o.pipeCreateOk t (i + 1 + j) = true ∧ o.spawnOk t (i + 1 + j) = true := by
      intro j hj
      have := hok (j + 1) (by omega)
      rwa [show i + (j + 1) = i + 1 + j by omega] at this
    have hpipe' : o.pipeCreateOk t (i + 1 + k) = true := by
      rwa [show i + (k + 1) = i + 1 + k by omega] at hpipe
    have hfail' : o.spawnOk t (i + 1 + k) = false := by
      rwa [show i + (k + 1) = i + 1 + k by omega] at hfail
    simp only [spawnAux, if_pos h0.1, if_pos h0.2,
      ih c' (i + 1) (by omega) hshift hpipe' hfail']
    rw [range_map_shift (PEvent.spawn t) (k + 1) i]
    rw [show i + 1 + k = i + (k + 1) by omega]

theorem spawnAux_pipe_fail (o : ProcOracle) (t : Nat) :
    ∀ k c i : Nat, k < c →
      (∀ j, j < k → o.pipeCreateOk t (i + j) = true ∧ o.spawnOk t (i + j) = true) →
      o.pipeCreateOk t (i + k) = false →
      spawnAux o t i c
        = ((List.range k).map (fun j => PEvent.spawn t (i + j)),
           some (.ERR_PIPE, i + k)) := by
  intro k
  induction k with
  | zero =>
    intro c i hkc hok hfail
    rw [Nat.add_zero] at hfail
    obtain ⟨c', rfl⟩ : ∃ c', c = c' + 1 := ⟨c - 1, by omega⟩
    simp only [spawnAux, hfail, Bool.false_eq_true, if_false]
    simp
  | succ k ih =>
    intro c i hkc hok hfail
    obtain ⟨c', rfl⟩ : ∃ c', c = c' + 1 := ⟨c - 1, by omega⟩
    have h0 := hok 0 (Nat.succ_pos k)
    rw [Nat.add_zero] at h0
    have hshift : ∀ j, j < k →
        o.pipeCreateOk t (i + 1 + j) = true ∧ o.spawnOk t (i + 1 + j) = true := by
      intro j hj
      have := hok (j + 1) (by omega)
      rwa [show i + (j + 1) = i + 1 + j by omega] at this
    have hfail' : o.pipeCreateOk t (i + 1 + k) = false := by
      rwa [show i + (k + 1) = i + 1 + k by omega] at hfail
    simp only [spawnAux, if_pos h0.1, if_pos h0.2,
      ih c' (i + 1) (by omega) hshift hfail']
    rw [range_map_shift (PEvent.spawn t) k i]
    rw [show i + 1 + k = i + (k + 1) by omega]

theorem readAux_ok (o : ProcOracle) (d : List Int) (L n t : Nat) :
    ∀ c i : Nat, (∀ j, j < c → o.readOk t (i + j) = true) →
      readAux o d L n t i c
        = ((List.range c).map (fun j => PEvent.read t (i + j)),
           ((List.range c).map (fun j =>
             cb_array_sum d (cb_offset L n (i + j)) (cb_chunk L n (i + j)))).sum,
           none) := by
  intro c
  induction c with
  | zero => intro i _; rfl
  | succ c ih =>
    intro i h
    have h0 := h 0 (Nat.succ_pos c)
    rw [Nat.add_zero] at h0
    have hshift : ∀ j, j < c → o.readOk t (i + 1 + j) = true := by
      intro j hj
      have := h (j + 1) (by omega)
      rwa [show i + (j + 1) = i + 1 + j by omega] at this
    simp only [readAux, if_pos h0, ih (i + 1) hshift]
    rw [range_map_shift (PEvent.read t) c i,
      range_map_shift (fun x => cb_array_sum d (cb_offset L n x) (cb_chunk L n x)) c i,
      List.sum_cons]

theorem waitAux_ok (o : ProcOracle) (t : Nat) :
    ∀ c i : Nat, (∀ j, j < c → o.waitOk t (i + j) = true) →
      waitAux o t i c
        = ((List.range c).map (fun j => PEvent.wait t (i + j)), none) := by
  intro c
  induction c with
  | zero => intro i _; rfl
  | succ c ih =>
    intro i h
    have h0 := h 0 (Nat.succ_pos c)
    rw [Nat.add_zero] at h0
    have hshift : ∀ j, j < c → o.waitOk t (i + 1 + j) = true := by
      intro j hj
      have := h (j + 1) (by omega)
      rwa [show i + (j + 1) = i + 1 + j by omega] at this
    simp only [waitAux, ih (i + 1) hshift, h0, if_true]
    rw [range_map_shift (PEvent.wait t) c i]

/-- All platform operations of iteration `u` of the process coordinator
succeed for every worker. -/
def procIterOk (o : ProcOracle) (n u : Nat) : Prop :=
  ∀ i, i < n → o.pipeCreateOk u i = true ∧ o.spawnOk u i = true ∧
    o.readOk u i = true ∧ o.waitOk u i = true

/-- Event trace of one fully successful iteration: `n` spawns, `n`
reads, `n` waits. -/
def goodIterEvents (t n : Nat) : List PEvent :=
  (List.range n).map (fun i => PEvent.spawn t i)
    ++ (List.range n).map (fun i => PEvent.read t i)
    ++ (List.range n).map (fun i => PEvent.wait t i)

/-- `iter_sum` of a successful iteration: the sum of the `n` workers'
slice sums. -/
def iterTotal (d : List Int) (L n : Nat) : Int :=
  ((List.range n).map (fun i => cb_array_sum d (cb_offset L n i) (cb_chunk L n i))).sum

theorem iterTotal_eq_full (d : List Int) (L n : Nat) (hn : 1 ≤ n) :
    iterTotal d L n = cb_array_sum d 0 L := by
  rw [iterTotal, range_sliceSum, cb_offset_last L n hn]

theorem range_flatMap_shift {α : Type} (g : Nat → List α) (c i : Nat) :
    (List.range (c + 1)).flatMap (fun j => g (i + j))
      = g i ++ (List.range c).flatMap (fun j => g (i + 1 + j)) := by
  rw [List.range_succ_eq_map, List.flatMap_cons, Nat.add_zero, List.flatMap_map]
  have hc : (fun a : Nat => g (i + a.succ)) = fun j => g (i + 1 + j) := by
    funext j
    congr 1
    omega
  rw [hc]

theorem processIter_ok (o : ProcOracle) (d : List Int) (L n t : Nat)
    (h : procIterOk o n t) :
    processIter o d L n t = (goodIterEvents t n, some (iterTotal d L n), none) := by
  have hsp : ∀ j, j < n →
      o.pipeCreateOk t (0 + j) = true ∧ o.spawnOk t (0 + j) = true := by
    intro j hj
    rw [Nat.zero_add]
    exact ⟨(h j hj).1, (h j hj).2.1⟩
  have hrd : ∀ j, j < n → o.readOk t (0 + j) = true := by
    intro j hj
    rw [Nat.zero_add]
    exact (h j hj).2.2.1
  have hwt : ∀ j, j < n → o.waitOk t (0 + j) = true := by
    intro j hj
    rw [Nat.zero_add]
    exact (h j hj).2.2.2
  simp only [processIter, spawnAux_ok o t n 0 hsp, readAux_ok o d L n t n 0 hrd,
    waitAux_ok o t n 0 hwt]
  simp [goodIterEvents, iterTotal, Nat.zero_add]

theorem processIter_spawn_fail (o : ProcOracle) (d : List Int) (L n t k : Nat)
    (hk : k < n)
    (hok : ∀ j, j < k → o.pipeCreateOk t j = true ∧ o.spawnOk t j = true)
    (hpipe : o.pipeCreateOk t k = true) (hfail : o.spawnOk t k = false) :
    processIter o d L n t
      = ((List.range (k + 1)).map (fun j => PEvent.spawn t j)
          ++ cleanupChildren t k, none, some .ERR_FORK) := by
  have hok' : ∀ j, j < k →
      o.pipeCreateOk t (0 + j) = true ∧ o.spawnOk t (0 + j) = true := by
    intro j hj
    rw [Nat.zero_add]
    exact hok j hj
  have h1 := spawnAux_spawn_fail o t k n 0 hk hok'
    (by rwa [Nat.zero_add]) (by rwa [Nat.zero_add])
  simp only [processIter, h1]
  simp [Nat.zero_add]

theorem processIter_pipe_fail (o : ProcOracle) (d : List Int) (L n t k : Nat)
    (hk : k < n)
    (hok : ∀ j, j < k → o.pipeCreateOk t j = true ∧ o.spawnOk t j = true)
    (hfail : o.pipeCreateOk t k = false) :
    processIter o d L n t
      = ((List.range k).map (fun j => PEvent.spawn t j)
          ++ cleanupChildren t k, none, some .ERR_PIPE) := by
  have hok' : ∀ j, j < k →
      o.pipeCreateOk t (0 + j) = true ∧ o.spawnOk t (0 + j) = true := by
    intro j hj
    rw [Nat.zero_add]
    exact hok j hj
  have h1 := spawnAux_pipe_fail o t k n 0 hk hok' (by rwa [Nat.zero_add])
  simp only [processIter, h1]
  simp [Nat.zero_add]

theorem processRun_ok (o : ProcOracle) (d : List Int) (L n : Nat) :
    ∀ c t0 : Nat, (∀ u, t0 ≤ u → u < t0 + c → procIterOk o n u) →
      processRun o d L n c t0
        = ((List.range c).flatMap (fun u => goodIterEvents (t0 + u) n),
           List.replicate c (iterTotal d L n), none) := by
  intro c
  induction c with
  | zero => intro t0 _; rfl
  | succ c ih =>
    intro t0 h
    have h0 : procIterOk o n t0 := h t0 (le_refl _) (by omega)
    have hrest : ∀ u, t0 + 1 ≤ u → u < t0 + 1 + c → procIterOk o n u := by
      intro u h1 h2
      exact h u (by omega) (by omega)
    simp only [processRun, processIter_ok o d L n t0 h0, ih (t0 + 1) hrest]
    rw [range_flatMap_shift (fun x => goodIterEvents x n) c t0]
    simp [List.replicate_succ]

theorem processRun_fail (o : ProcOracle) (d : List Int) (L n : Nat) :
    ∀ (δ c t0 : Nat) (evs : List PEvent) (e : cb_error), δ < c →
      (∀ u, u < δ → procIterOk o n (t0 + u)) →
      processIter o d L n (t0 + δ) = (evs, none, some e) →
      (processRun o d L n c t0).1
          = (List.range δ).flatMap (fun u => goodIterEvents (t0 + u) n) ++ evs ∧
      (processRun o d L n c t0).2.2 = some e := by
  intro δ
  induction δ with
  | zero =>
    intro c t0 evs e hδ hprev hit
    obtain ⟨c', rfl⟩ : ∃ c', c = c' + 1 := ⟨c - 1, by omega⟩
    rw [Nat.add_zero] at hit
    simp only [processRun, hit]
    simp
  | succ δ ih =>
    intro c t0 evs e hδ hprev hit
    obtain ⟨c', rfl⟩ : ∃ c', c = c' + 1 := ⟨c - 1, by omega⟩
    have h0 : procIterOk o n t0 := by
      have := hprev 0 (Nat.succ_pos δ)
      rwa [Nat.add_zero] at this
    have hprev' : ∀ u, u < δ → procIterOk o n (t0 + 1 + u) := by
      intro u hu
      have := hprev (u + 1) (by omega)
      rwa [show t0 + (u + 1) = t0 + 1 + u by omega] at this
    have hit' : processIter o d L n (t0 + 1 + δ) = (evs, none, some e) := by
      rwa [show t0 + (δ + 1) = t0 + 1 + δ by omega] at hit
    have hrec := ih c' (t0 + 1) evs e (by omega) hprev' hit'
    simp only [processRun, processIter_ok o d L n t0 h0]
    rw [range_flatMap_shift (fun x => goodIterEvents x n) δ t0]
    constructor
    · show goodIterEvents t0 n ++ (processRun o d L n c' (t0 + 1)).1 = _
      rw [hrec.1, List.append_assoc]
    · show (processRun o d L n c' (t0 + 1)).2.2 = some e
      exact hrec.2

theorem threadFinal_sum (o : ThreadOracle) (d : List Int) (L n t : Nat)
    (hperm : (o.schedule t).Perm (List.range n)) (hn : 1 ≤ n) :
    (threadFinal o d L n t).sum = cb_array_sum d 0 L := by
  rw [threadFinal, fold_threadUpdate_sum, List.map_map]
  show (0 : Int) + _ = _
  rw [zero_add]
  have hp := (hperm.map
    (fun i => cb_array_sum d (cb_offset L n i) (cb_chunk L n i))).sum_eq
  have hc : ((fun r : ThreadRes => r.psum) ∘ threadResult o d L n t)
      = fun i => cb_array_sum d (cb_offset L n i) (cb_chunk L n i) := by
    funext i
    rfl
  rw [hc, hp, range_sliceSum, cb_offset_last L n hn]

theorem threadIters_ok (o : ThreadOracle) (d : List Int) (L n : Nat)
    (hall : ∀ t i, o.createOk t i = true ∧ o.joinOk t i = true) :
    ∀ c t0 : Nat, threadIters o d L n c t0
      = (none, (List.range c).map (fun u =>
          ((threadFinal o d L n (t0 + u)).latest_end
            - (threadFinal o d L n (t0 + u)).earliest_start,
           (threadFinal o d L n (t0 + u)).sum))) := by
  intro c
  induction c with
  | zero => intro t0; rfl
  | succ c ih =>
    intro t0
    have hcreate : ((List.range n).all fun i => o.createOk t0 i) = true := by
      rw [List.all_eq_true]
      intro i _
      exact (hall t0 i).1
    have hjoin : ((List.range n).all fun i => o.joinOk t0 i) = true := by
      rw [List.all_eq_true]
      intro i _
      exact (hall t0 i).2
    simp only [threadIters, hcreate, hjoin, if_true, ih (t0 + 1)]
    rw [range_map_shift (fun x =>
      ((threadFinal o d L n x).latest_end - (threadFinal o d L n x).earliest_start,
       (threadFinal o d L n x).sum)) c t0]

/-- C1: the full-array sum equals the sum of per-slice `cb_array_sum`
outputs over any contiguous non-overlapping partition (`sliceSums`), and
for a fixed dataset and configuration the sums reported by the baseline
(`cb_bench_single_run`), process-mode (`cb_bench_process_run`) and
thread-mode (`cb_bench_thread_run`) coordinators are all equal to that
full-array sum, for any platform schedule and timing. -/
theorem cross_mode_sums_equal (d : List Int) (lens : List Nat) (cfg : Config)
    (r : RunReport) (po : ProcOracle) (th : ThreadOracle) (es ep : Nat → Rat)
    (hlens : lens.sum = d.length)
    (hL : cfg.array_length = d.length)
    (hnp : 1 ≤ cfg.num_processes) (hnt : 1 ≤ cfg.num_threads)
    (hit : 1 ≤ cfg.iterations)
    (hpo : ∀ t i, po.pipeCreateOk t i = true ∧ po.spawnOk t i = true ∧
      po.readOk t i = true ∧ po.waitOk t i = true)
    (hth : ∀ t i, th.createOk t i = true ∧ th.joinOk t i = true)
    (hsched : ∀ t, (th.schedule t).Perm (List.range cfg.num_threads)) :
    (sliceSums d 0 lens).sum = cb_array_sum d 0 d.length ∧
    (cb_bench_single_run es true (some d) (some cfg) (some r)).2.map RunReport.sum
      = some (cb_array_sum d 0 d.length) ∧
    (cb_bench_process_run po ep true (some d) (some cfg) (some r)).2.1.map
        RunReport.sum = some (cb_array_sum d 0 d.length) ∧
    (cb_bench_thread_run th true true (some d) (some cfg) (some r)).2.map
        RunReport.sum = some (cb_array_sum d 0 d.length) := by
  obtain ⟨m, hm⟩ : ∃ m, cfg.iterations = m + 1 := ⟨cfg.iterations - 1, by omega⟩
  refine ⟨?_, ?_, ?_, ?_⟩
  · rw [sliceSums_sum, hlens]
  · simp only [cb_bench_single_run, if_pos, hm]
    simp [hL]
  · have hrun := processRun_ok po d cfg.array_length cfg.num_processes
      cfg.iterations 0
      (fun u _ _ => fun i hi => ⟨(hpo u i).1, (hpo u i).2.1, (hpo u i).2.2.1,
        (hpo u i).2.2.2⟩)
    simp only [cb_bench_process_run, if_pos, hrun]
    rw [hm]
    simp [List.replicate_succ, iterTotal_eq_full d cfg.array_length
      cfg.num_processes hnp, hL]
    exact iterTotal_eq_full d d.length cfg.num_processes hnp
  · have hti := threadIters_ok th d cfg.array_length cfg.num_threads hth
      cfg.iterations 0
    simp only [cb_bench_thread_run, if_pos, hti]
    rw [hm, List.range_succ_eq_map]
    simp only [List.map_cons, List.map_map, Nat.zero_add]
    simp [threadFinal_sum th d cfg.array_length cfg.num_threads 0 (hsched 0) hnt,
      hL]
    exact threadFinal_sum th d d.length cfg.num_threads 0 (hsched 0) hnt

/-- C1 witness: dataset `[1, 2, 3]`, partition `[2, 1]`, two workers of
each kind, one iteration. -/
theorem cross_mode_sums_equal_witness :
    (sliceSums [(1 : Int), 2, 3] 0 [2, 1]).sum
      = cb_array_sum [(1 : Int), 2, 3] 0 3 ∧
    (cb_bench_single_run (fun _ => 0) true (some [(1 : Int), 2, 3])
        (some ⟨3, 2, 2, 1, 1, false⟩)
        (some ⟨"x", 0, 0, ⟨0, 0, 0, 0, 0⟩⟩)).2.map RunReport.sum
      = some (cb_array_sum [(1 : Int), 2, 3] 0 3) ∧
    (cb_bench_process_run ⟨fun _ _ => true, fun _ _ => true, fun _ _ => true,
        fun _ _ => true⟩ (fun _ => 0) true (some [(1 : Int), 2, 3])
        (some ⟨3, 2, 2, 1, 1, false⟩)
        (some ⟨"x", 0, 0, ⟨0, 0, 0, 0, 0⟩⟩)).2.1.map RunReport.sum
      = some (cb_array_sum [(1 : Int), 2, 3] 0 3) ∧
    (cb_bench_thread_run ⟨fun _ _ => true, fun _ _ => true, fun _ _ => 0,
        fun _ _ => 0, fun _ => List.range 2⟩ true true
        (some [(1 : Int), 2, 3]) (some ⟨3, 2, 2, 1, 1, false⟩)
        (some ⟨"x", 0, 0, ⟨0, 0, 0, 0, 0⟩⟩)).2.map RunReport.sum
      = some (cb_array_sum [(1 : Int), 2, 3] 0 3) := by
  have h := cross_mode_sums_equal [(1 : Int), 2, 3] [2, 1]
    ⟨3, 2, 2, 1, 1, false⟩ ⟨"x", 0, 0, ⟨0, 0, 0, 0, 0⟩⟩
    ⟨fun _ _ => true, fun _ _ => true, fun _ _ => true, fun _ _ => true⟩
    ⟨fun _ _ => true, fun _ _ => true, fun _ _ => 0, fun _ _ => 0,
      fun _ => List.range 2⟩
    (fun _ => 0) (fun _ => 0)
    (by decide) rfl (by decide) (by decide) (by decide)
    (fun t i => ⟨rfl, rfl, rfl, rfl⟩) (fun t i => ⟨rfl, rfl⟩)
    (fun t => List.Perm.refl _)
  exact h

theorem mem_goodIterEvents {ev : PEvent} {u n : Nat}
    (h : ev ∈ goodIterEvents u n) : evIter ev = u := by
  rw [goodIterEvents, List.mem_append, List.mem_append] at h
  rcases h with (h | h) | h <;>
    (obtain ⟨i, _, rfl⟩ := List.mem_map.mp h; rfl)

theorem mem_cleanupChildren {ev : PEvent} {t k : Nat}
    (h : ev ∈ cleanupChildren t k) : evIter ev = t := by
  rw [cleanupChildren, List.mem_flatMap] at h
  obtain ⟨j, _, hj⟩ := h
  rcases List.mem_cons.mp hj with rfl | hj'
  · rfl
  · rcases List.mem_cons.mp hj' with rfl | hj''
    · rfl
    · cases hj''

theorem kill_wait_mem_cleanup {t k j : Nat} (hj : j < k) :
    PEvent.kill t j ∈ cleanupChildren t k ∧
    PEvent.wait t j ∈ cleanupChildren t k := by
  constructor <;>
    (rw [cleanupChildren, List.mem_flatMap]
     exact ⟨j, List.mem_range.mpr hj, by simp⟩)

/-- C4: in the process coordinator, if in some iteration `t` the `k`-th
worker's spawn fails (or its pipe creation fails) after workers
`0 .. k-1` were spawned successfully, then the run returns the
corresponding error (`CB_ERR_FORK` / `CB_ERR_PIPE`), every worker
`0 .. k-1` of that iteration is killed and reaped (a `kill` and a `wait`
call for each appear in the trace) before the error is returned, the
caller's report is untouched, and no event of any later iteration
occurs (no further iterations run). -/
theorem process_partial_failure_teardown (o : ProcOracle) (timeOf : Nat → Rat)
    (d : List Int) (cfg : Config) (r : RunReport) (t k : Nat)
    (hk : k < cfg.num_processes) (ht : t < cfg.iterations)
    (hprev : ∀ u, u < t → procIterOk o cfg.num_processes u)
    (hok : ∀ j, j < k → o.pipeCreateOk t j = true ∧ o.spawnOk t j = true) :
    (o.pipeCreateOk t k = true → o.spawnOk t k = false →
      (cb_bench_process_run o timeOf true (some d) (some cfg) (some r)).1
          = .ERR_FORK ∧
      (∀ j, j < k →
        PEvent.kill t j
            ∈ (cb_bench_process_run o timeOf true (some d) (some cfg) (some r)).2.2 ∧
        PEvent.wait t j
            ∈ (cb_bench_process_run o timeOf true (some d) (some cfg) (some r)).2.2) ∧
      (∀ ev ∈ (cb_bench_process_run o timeOf true (some d) (some cfg) (some r)).2.2,
        evIter ev ≤ t) ∧
      (cb_bench_process_run o timeOf true (some d) (some cfg) (some r)).2.1
          = some r) ∧
    (o.pipeCreateOk t k = false →
      (cb_bench_process_run o timeOf true (some d) (some cfg) (some r)).1
          = .ERR_PIPE ∧
      (∀ j, j < k →
        PEvent.kill t j
            ∈ (cb_bench_process_run o timeOf true (some d) (some cfg) (some r)).2.2 ∧
        PEvent.wait t j
            ∈ (cb_bench_process_run o timeOf true (some d) (some cfg) (some r)).2.2) ∧
      (∀ ev ∈ (cb_bench_process_run o timeOf true (some d) (some cfg) (some r)).2.2,
        evIter ev ≤ t) ∧
      (cb_bench_process_run o timeOf true (some d) (some cfg) (some r)).2.1
          = some r) := by
  have hprev0 : ∀ u, u < t → procIterOk o cfg.num_processes (0 + u) := by
    intro u hu
    rw [Nat.zero_add]
    exact hprev u hu
  constructor
  · intro hpipe hfail
    have hiter := processIter_spawn_fail o d cfg.array_length cfg.num_processes
      t k hk hok hpipe hfail
    have hiter0 : processIter o d cfg.array_length cfg.num_processes (0 + t)
        = ((List.range (k + 1)).map (fun j => PEvent.spawn t j)
            ++ cleanupChildren t k, none, some .ERR_FORK) := by
      rwa [Nat.zero_add]
    have hrun := processRun_fail o d cfg.array_length cfg.num_processes
      t cfg.iterations 0 _ _ ht hprev0 hiter0
    have hres : cb_bench_process_run o timeOf true (some d) (some cfg) (some r)
        = (.ERR_FORK, some r,
           (processRun o d cfg.array_length cfg.num_processes cfg.iterations 0).1) := by
      simp only [cb_bench_process_run, if_pos, hrun.2]
    rw [hres]
    refine ⟨rfl, ?_, ?_, rfl⟩
    · intro j hj
      have hkw := kill_wait_mem_cleanup (t := t) (k := k) hj
      rw [hrun.1]
      constructor <;>
        (rw [List.mem_append]
         exact Or.inr (by rw [List.mem_append]; exact Or.inr (by tauto)))
    · intro ev hev
      rw [hrun.1] at hev
      rcases List.mem_append.mp hev with h1 | h1
      · obtain ⟨u, hu, hu2⟩ := List.mem_flatMap.mp h1
        have := mem_goodIterEvents hu2
        have hu' := List.mem_range.mp hu
        omega
      · rcases List.mem_append.mp h1 with h2 | h2
        · obtain ⟨i, _, rfl⟩ := List.mem_map.mp h2
          exact le_refl t
        · exact le_of_eq (mem_cleanupChildren h2)
  · intro hfail
    have hiter := processIter_pipe_fail o d cfg.array_length cfg.num_processes
      t k hk hok hfail
    have hiter0 : processIter o d cfg.array_length cfg.num_processes (0 + t)
        = ((List.range k).map (fun j => PEvent.spawn t j)
            ++ cleanupChildren t k, none, some .ERR_PIPE) := by
      rwa [Nat.zero_add]
    have hrun := processRun_fail o d cfg.array_length cfg.num_processes
      t cfg.iterations 0 _ _ ht hprev0 hiter0
    have hres : cb_bench_process_run o timeOf true (some d) (some cfg) (some r)
        = (.ERR_PIPE, some r,
           (processRun o d cfg.array_length cfg.num_processes cfg.iterations 0).1) := by
      simp only [cb_bench_process_run, if_pos, hrun.2]
    rw [hres]
    refine ⟨rfl, ?_, ?_, rfl⟩
    · intro j hj
      have hkw := kill_wait_mem_cleanup (t := t) (k := k) hj
      rw [hrun.1]
      constructor <;>
        (rw [List.mem_append]
         exact Or.inr (by rw [List.mem_append]; exact Or.inr (by tauto)))
    · intro ev hev
      rw [hrun.1] at hev
      rcases List.mem_append.mp hev with h1 | h1
      · obtain ⟨u, hu, hu2⟩ := List.mem_flatMap.mp h1
        have := mem_goodIterEvents hu2
        have hu' := List.mem_range.mp hu
        omega
      · rcases List.mem_append.mp h1 with h2 | h2
        · obtain ⟨i, _, rfl⟩ := List.mem_map.mp h2
          exact le_refl t
        · exact le_of_eq (mem_cleanupChildren h2)

/-- C4 witness: two workers, one iteration; worker 1's fork fails, so
worker 0 is killed and reaped and `CB_ERR_FORK` is returned. -/
theorem process_partial_failure_teardown_witness :
    (cb_bench_process_run
        ⟨fun _ _ => true, fun t i => !(t == 0 && i == 1), fun _ _ => true,
         fun _ _ => true⟩ (fun _ => 0) true (some [(1 : Int), 2, 3, 4])
        (some ⟨4, 2, 2, 1, 1, false⟩)
        (some ⟨"x", 0, 0, ⟨0, 0, 0, 0, 0⟩⟩)).1 = .ERR_FORK ∧
    PEvent.kill 0 0
        ∈ (cb_bench_process_run
        ⟨fun _ _ => true, fun t i => !(t == 0 && i == 1), fun _ _ => true,
         fun _ _ => true⟩ (fun _ => 0) true (some [(1 : Int), 2, 3, 4])
        (some ⟨4, 2, 2, 1, 1, false⟩)
        (some ⟨"x", 0, 0, ⟨0, 0, 0, 0, 0⟩⟩)).2.2 ∧
    PEvent.wait 0 0
        ∈ (cb_bench_process_run
        ⟨fun _ _ => true, fun t i => !(t == 0 && i == 1), fun _ _ => true,
         fun _ _ => true⟩ (fun _ => 0) true (some [(1 : Int), 2, 3, 4])
        (some ⟨4, 2, 2, 1, 1, false⟩)
        (some ⟨"x", 0, 0, ⟨0, 0, 0, 0, 0⟩⟩)).2.2 := by
  have h := process_partial_failure_teardown
    ⟨fun _ _ => true, fun t i => !(t == 0 && i == 1), fun _ _ => true,
     fun _ _ => true⟩ (fun _ => 0) [(1 : Int), 2, 3, 4]
    ⟨4, 2, 2, 1, 1, false⟩ ⟨"x", 0, 0, ⟨0, 0, 0, 0, 0⟩⟩ 0 1
    (by decide) (by decide)
    (fun u hu => absurd hu (Nat.not_lt_zero u))
    (fun j hj => ⟨rfl, by interval_cases j <;> rfl⟩)
  have h1 := h.1 rfl (by rfl)
  exact ⟨h1.1, (h1.2.1 0 (by decide)).1, (h1.2.1 0 (by decide)).2⟩

/-- C10: each of `cb_bench_single_run`, `cb_bench_process_run`,
`cb_bench_thread_run` and `cb_stats_compute` returns `CB_ERR_ARGS` when
any of its pointer arguments (dataset, configuration, report; times,
stats output) is NULL, and leaves the caller-supplied output structure
completely unmodified (and, for the process coordinator, performs no
platform calls). -/
theorem null_args_err_args_unmodified (es tf : Nat → Rat) (po : ProcOracle)
    (th : ThreadOracle) (a1 a2 a3 mOk : Bool)
    (d? : Option (List Int)) (cfg? : Option Config) (r? : Option RunReport)
    (times? : Option (List Rat)) (out? : Option BenchStats)
    (h : d? = none ∨ cfg? = none ∨ r? = none)
    (h2 : times? = none ∨ out? = none) :
    cb_bench_single_run es a1 d? cfg? r? = (.ERR_ARGS, r?) ∧
    cb_bench_process_run po tf a2 d? cfg? r? = (.ERR_ARGS, r?, []) ∧
    cb_bench_thread_run th a3 mOk d? cfg? r? = (.ERR_ARGS, r?) ∧
    cb_stats_compute times? out? = (.ERR_ARGS, out?) := by
  refine ⟨?_, ?_, ?_, ?_⟩
  · rcases h with h | h | h <;> subst h
    · rfl
    · cases d? <;> rfl
    · cases d? <;> cases cfg? <;> rfl
  · rcases h with h | h | h <;> subst h
    · rfl
    · cases d? <;> rfl
    · cases d? <;> cases cfg? <;> rfl
  · rcases h with h | h | h <;> subst h
    · rfl
    · cases d? <;> rfl
    · cases d? <;> cases cfg? <;> rfl
  · rcases h2 with h2 | h2 <;> subst h2
    · rfl
    · cases times? <;> rfl

/-- C10 witness: NULL dataset and NULL times at otherwise concrete
arguments. -/
theorem null_args_err_args_unmodified_witness :
    cb_bench_single_run (fun _ => 0) true none (some ⟨3, 1, 1, 1, 1, false⟩)
        (some ⟨"x", 7, 1, ⟨0, 0, 0, 0, 0⟩⟩)
      = (.ERR_ARGS, some ⟨"x", 7, 1, ⟨0, 0, 0, 0, 0⟩⟩) ∧
    cb_bench_process_run ⟨fun _ _ => true, fun _ _ => true, fun _ _ => true,
        fun _ _ => true⟩ (fun _ => 0) true none (some ⟨3, 1, 1, 1, 1, false⟩)
        (some ⟨"x", 7, 1, ⟨0, 0, 0, 0, 0⟩⟩)
      = (.ERR_ARGS, some ⟨"x", 7, 1, ⟨0, 0, 0, 0, 0⟩⟩, []) ∧
    cb_bench_thread_run ⟨fun _ _ => true, fun _ _ => true, fun _ _ => 0,
        fun _ _ => 0, fun _ => []⟩ true true none
        (some ⟨3, 1, 1, 1, 1, false⟩) (some ⟨"x", 7, 1, ⟨0, 0, 0, 0, 0⟩⟩)
      = (.ERR_ARGS, some ⟨"x", 7, 1, ⟨0, 0, 0, 0, 0⟩⟩) ∧
    cb_stats_compute none (some ⟨1, 2, 3, 4, 5⟩)
      = (.ERR_ARGS, some ⟨1, 2, 3, 4, 5⟩) :=
  null_args_err_args_unmodified (fun _ => 0) (fun _ => 0)
    ⟨fun _ _ => true, fun _ _ => true, fun _ _ => true, fun _ _ => true⟩
    ⟨fun _ _ => true, fun _ _ => true, fun _ _ => 0, fun _ _ => 0, fun _ => []⟩
    true true true true none (some ⟨3, 1, 1, 1, 1, false⟩)
    (some ⟨"x", 7, 1, ⟨0, 0, 0, 0, 0⟩⟩) none (some ⟨1, 2, 3, 4, 5⟩)
    (Or.inl rfl) (Or.inl rfl)
